import Mathlib

/-!
Verification development for the bpsr-profit-calc repository: a shallow
embedding of its pricing store, cost engine, persistence gateway and catalog
view controller, followed by theorems about the specified behaviour.
JavaScript numbers are modelled as integers; JavaScript string-keyed objects
as ordered association lists in key insertion order.
-/

namespace BPSR

/-- Shallow embedding of a JavaScript object used as a string-keyed record
(`Record<string, T>`): an ordered association list in key insertion order. -/
abbrev JsRecord (α : Type) : Type := List (String × α)

/-- Property read `m[k]`: the value at the first matching key, if any. -/
def recordGet {α : Type} : JsRecord α → String → Option α
  | [], _ => none
  | p :: m, k => if p.1 == k then some p.2 else recordGet m k

/-- Property write, as performed by a spread `{ ...m, [k]: v }` (and by
`m[k] = v`): an existing key keeps its position and takes the new value,
a fresh key is appended at the end. -/
def recordSet {α : Type} (m : JsRecord α) (k : String) (v : α) : JsRecord α :=
  if m.any (fun p => p.1 == k) then
    m.map (fun p => if p.1 == k then (k, v) else p)
  else m ++ [(k, v)]

/-- Ingredient object shape (`@/data/ingredients`). Fields other than
`defaultPrice` are `Option`-valued because a JavaScript spread of `undefined`
(`{ ...prev[id], defaultPrice: p }` for an absent `id`) yields an object
carrying only `defaultPrice`. -/
structure Ingredient where
  id : Option String
  name : Option String
  icon : Option String
  defaultPrice : Int
deriving DecidableEq

/-- Entry of a recipe's ingredient list: `{ id, qty }`. -/
structure RecipeEntry where
  id : String
  qty : Int
deriving DecidableEq

/-- Recipe object shape (`@/data/recipes`). -/
structure Recipe where
  id : String
  name : String
  skill : String
  sellValue : Int
  ingredients : List RecipeEntry
deriving DecidableEq

/-- Embedding of `calculateRecipeCost` in `LifeSkillCalculator`: a `reduce`
over `recipe.ingredients` adding `ingredients[id].defaultPrice * qty` when the
id is a key of the ingredient map, otherwise the first matching recipe's
`sellValue * qty`, otherwise nothing. -/
def calculateRecipeCost (ingredients : JsRecord Ingredient) (recipes : List Recipe)
    (recipe : Recipe) : Int :=
  recipe.ingredients.foldl (fun sum e =>
    match recordGet ingredients e.id with
    | some ing => sum + ing.defaultPrice * e.qty
    | none =>
      match recipes.find? (fun r => r.id == e.id) with
      | some nestedRecipe => sum + nestedRecipe.sellValue * e.qty
      | none => sum) 0

/-- Embedding of `handleIngredientPriceChange`, the `setIngredients` updater
`{ ...prev, [id]: { ...prev[id], defaultPrice: newPrice } }`. When `id` is
absent the spread of `undefined` produces an object holding only
`defaultPrice`. -/
def handleIngredientPriceChange (prev : JsRecord Ingredient) (id : String)
    (newPrice : Int) : JsRecord Ingredient :=
  recordSet prev id
    (match recordGet prev id with
     | some ing => { ing with defaultPrice := newPrice }
     | none => { id := none, name := none, icon := none, defaultPrice := newPrice })

/-- Embedding of the list update inside `handleRecipeSellValueChange`:
`prev.map(r => r.id === id ? { ...r, sellValue: newValue } : r)`. -/
def handleRecipeSellValueChange (prev : List Recipe) (id : String)
    (newValue : Int) : List Recipe :=
  prev.map (fun r => if r.id == id then { r with sellValue := newValue } else r)

/-- Lexicographic strict comparison of character lists (the standard string
order, written out so that it evaluates by computation). -/
def ltChars : List Char → List Char → Bool
  | [], [] => false
  | [], _ :: _ => true
  | _ :: _, [] => false
  | a :: as, b :: bs => a < b || (a == b && ltChars as bs)

/-- Model of `String.prototype.localeCompare` as the canonical lexicographic
comparison of the two strings: negative, zero or positive according to their
relative order. -/
def localeCompare (a b : String) : Int :=
  if ltChars a.toList b.toList then -1
  else if ltChars b.toList a.toList then 1
  else 0

/-- Sort mode of the dropdown: "name" | "profit" | "totalCost". -/
inductive SortBy where
  | name
  | profit
  | totalCost
deriving DecidableEq

/-- Comparator passed to `.sort` when computing `filteredRecipes`. -/
def sortComparator (sortBy : SortBy) (ingredients : JsRecord Ingredient)
    (recipes : List Recipe) (a b : Recipe) : Int :=
  match sortBy with
  | .name => localeCompare a.name b.name
  | .profit =>
    (b.sellValue - calculateRecipeCost ingredients recipes b)
      - (a.sellValue - calculateRecipeCost ingredients recipes a)
  | .totalCost =>
    calculateRecipeCost ingredients recipes a - calculateRecipeCost ingredients recipes b

/-- Observable result of `Array.prototype.sort(cmp)` for a consistent
comparator: the stable sort placing `a` before `b` whenever `cmp a b ≤ 0`
(ECMAScript requires `sort` to be stable). -/
def jsSort {α : Type} (cmp : α → α → Int) (l : List α) : List α :=
  List.insertionSort (fun a b => cmp a b ≤ 0) l

/-- Sort step of `filteredRecipes`: `.sort(comparator)` under the chosen mode
(the spec's `sortRecipes`). -/
def sortRecipes (sortBy : SortBy) (ingredients : JsRecord Ingredient)
    (recipes : List Recipe) (l : List Recipe) : List Recipe :=
  jsSort (sortComparator sortBy ingredients recipes) l

/-- Embedding of the `filteredRecipes` computation together with its effect on
the `recipes` state array. `Array.prototype.sort` sorts its receiver in place:
when `selectedSkill` is "All" the receiver is the state array itself, so that
array ends up reordered; otherwise `.filter` built a fresh array and the state
array is untouched. First component: the displayed list; second component: the
contents of the `recipes` array afterwards. -/
def filteredRecipesRun (selectedSkill : String) (sortBy : SortBy)
    (ingredients : JsRecord Ingredient) (recipes : List Recipe) :
    List Recipe × List Recipe :=
  let base := if selectedSkill == "All" then recipes
    else recipes.filter (fun r => r.skill == selectedSkill)
  let sorted := sortRecipes sortBy ingredients recipes base
  (sorted, if selectedSkill == "All" then sorted else recipes)

/-- Raw text retrieved from the key-value store, abstracted to whether
`JSON.parse` succeeds on it and, when it does, to the parsed value. -/
inductive Stored (α : Type) where
  | malformed
  | valid (a : α)
deriving DecidableEq

/-- Model of `JSON.parse`: the parsed value, or a thrown exception
(`Except.error`). -/
def jsonParse {α : Type} : Stored α → Except Unit α
  | .malformed => .error ()
  | .valid a => .ok a

/-- Persisted recipe override: `{ sellValue }`. -/
structure RecipeOverride where
  sellValue : Int
deriving DecidableEq

/-- Embedding of the load `useEffect` of `LifeSkillCalculator`: reads the two
persisted documents; `JSON.parse` is not wrapped in try/catch, so a parse
failure escapes the effect (`Except.error`). On success the ingredient state
is replaced wholesale and each recipe's `sellValue` is overlaid with
`parsed[r.id]?.sellValue ?? r.sellValue`. -/
def loadSavedData (savedIngredients : Option (Stored (JsRecord Ingredient)))
    (savedRecipes : Option (Stored (JsRecord RecipeOverride)))
    (st : JsRecord Ingredient × List Recipe) :
    Except Unit (JsRecord Ingredient × List Recipe) := do
  let st1 ← match savedIngredients with
    | none => pure st
    | some s => do
      let m ← jsonParse s
      pure (m, st.2)
  match savedRecipes with
  | none => pure st1
  | some s => do
    let parsed ← jsonParse s
    pure (st1.1, st1.2.map (fun r =>
      { r with sellValue :=
          ((recordGet parsed r.id).map RecipeOverride.sellValue).getD r.sellValue }))

/-- JSON value as seen by the upload handler; `typeof price === "number"`
distinguishes numbers from every other shape. -/
inductive JsonValue where
  | num (n : Int)
  | str (s : String)
  | boolean (b : Bool)
  | null
  | objOrArr
deriving DecidableEq

/-- Banner shown by the `alert` at the end of `handleUpload`. -/
inductive Notice where
  | success
  | failure
deriving DecidableEq

/-- Numeric entries of a parsed upload document, in `Object.entries` order. -/
def numericEntries (entries : List (String × JsonValue)) : List (String × Int) :=
  entries.filterMap (fun e => match e.2 with
    | .num n => some (e.1, n)
    | _ => none)

/-- Single step of the `Object.entries(priceData).forEach` loop inside
`handleUpload`: a numeric value triggers `onPriceChange` (wired to
`handleIngredientPriceChange`), anything else is skipped. The second component
records the invocations made so far. -/
def importStep (acc : JsRecord Ingredient × List (String × Int))
    (e : String × JsonValue) : JsRecord Ingredient × List (String × Int) :=
  match e.2 with
  | .num n => (handleIngredientPriceChange acc.1 e.1 n, acc.2 ++ [(e.1, n)])
  | _ => acc

/-- Embedding of `handleUpload` once the file content is available: parse the
document, then run the entries loop; a parse failure is caught and only
reported. Returns the resulting ingredient state, the banner shown, and the
list of `onPriceChange` invocations in order. -/
def importIngredientPrices (document : Stored (List (String × JsonValue)))
    (st : JsRecord Ingredient) :
    JsRecord Ingredient × Notice × List (String × Int) :=
  match jsonParse document with
  | .error _ => (st, .failure, [])
  | .ok entries =>
    let res := entries.foldl importStep (st, [])
    (res.1, .success, res.2)

/-- Property key used by `acc[ing.id]` in `handleDownload`: an absent `id`
field reads as `undefined`, which JavaScript coerces to the key "undefined". -/
def idKey (ing : Ingredient) : String := ing.id.getD "undefined"

/-- Embedding of the `priceData` reduce in `handleDownload`: the export
document mapping `ing.id` to `ing.defaultPrice` over the full ingredient
list prop. -/
def handleDownload (ingredientList : List Ingredient) : JsRecord Int :=
  ingredientList.foldl (fun acc ing => recordSet acc (idKey ing) ing.defaultPrice) []

/-- Model of `Object.values`, as used for the `ingredients` prop of
`IngredientMaster`. -/
def objectValues {α : Type} (m : JsRecord α) : List α := m.map (fun p => p.2)

/-- Lift of an exported document into the JSON value type accepted by the
upload handler: every exported value is a number. -/
def toJsonDoc (doc : JsRecord Int) : List (String × JsonValue) :=
  doc.map (fun p => (p.1, JsonValue.num p.2))

/-- Substring scan over character lists: does the second list contain the
first as a contiguous run. -/
def containsChars (needle : List Char) : List Char → Bool
  | [] => needle.isEmpty
  | c :: cs => needle.isPrefixOf (c :: cs) || containsChars needle cs

/-- Model of `String.prototype.includes`. -/
def jsIncludes (hay needle : String) : Bool :=
  containsChars needle.toList hay.toList

/-- Displayed ingredient list of `IngredientMaster`: filter by
`ing.name.toLowerCase().includes(search.toLowerCase())`. An object lacking the
`name` field would make the original throw; the model reads such a name as ""
(no claim exercises that corner). -/
def ingredientMasterFiltered (ingredientList : List Ingredient) (search : String) :
    List Ingredient :=
  ingredientList.filter (fun ing =>
    jsIncludes (ing.name.getD "").toLower search.toLower)

/-- Observable outputs of `IngredientMaster` for a given prop list and search
box content: the displayed (filtered) list and the document `handleDownload`
exports. -/
structure IngredientMasterView where
  displayed : List Ingredient
  exported : JsRecord Int
deriving DecidableEq

/-- Render-time outputs of the `IngredientMaster` component. -/
def ingredientMaster (ingredientList : List Ingredient) (search : String) :
    IngredientMasterView :=
  { displayed := ingredientMasterFiltered ingredientList search
    exported := handleDownload ingredientList }

/-- Example ingredient from the spec's testable properties: iron_ore at
price 10. -/
def ironOre : Ingredient :=
  { id := some "iron_ore", name := some "Iron Ore", icon := none, defaultPrice := 10 }

/-- Example ingredient map holding only iron_ore. -/
def demoIngredients : JsRecord Ingredient := [("iron_ore", ironOre)]

/-- Example recipe R1 from the spec: 3 iron_ore, sells for 50. -/
def demoR1 : Recipe :=
  { id := "R1", name := "R1", skill := "Smelting", sellValue := 50
    ingredients := [{ id := "iron_ore", qty := 3 }] }

/-- Example recipe R2 from the spec: 2 units of nested recipe R1. -/
def demoR2 : Recipe :=
  { id := "R2", name := "R2", skill := "Smelting", sellValue := 120
    ingredients := [{ id := "R1", qty := 2 }] }

/-- Example recipe list. -/
def demoRecipes : List Recipe := [demoR1, demoR2]

/-- Example recipe with an empty ingredient list. -/
def demoEmpty : Recipe :=
  { id := "E", name := "Empty", skill := "Weaving", sellValue := 5, ingredients := [] }

/-- Contribution of a single `{ id, qty }` entry to a recipe's cost: the
ingredient map is consulted first, then the recipe list, then 0. -/
def ingredientContribution (ingredients : JsRecord Ingredient) (recipes : List Recipe)
    (e : RecipeEntry) : Int :=
  match recordGet ingredients e.id with
  | some ing => ing.defaultPrice * e.qty
  | none =>
    match recipes.find? (fun r => r.id == e.id) with
    | some nestedRecipe => nestedRecipe.sellValue * e.qty
    | none => 0

/-- Profit of a recipe under the current state: `sellValue - cost`, exactly as
the profit comparator computes it. -/
def profit (ingredients : JsRecord Ingredient) (recipes : List Recipe)
    (r : Recipe) : Int :=
  r.sellValue - calculateRecipeCost ingredients recipes r

end BPSR

namespace BPSR

/-! Helper lemmas about the record operations. -/

theorem recordGet_map_replace {α : Type} (m : JsRecord α) (k : String) (v : α) :
    recordGet (m.map (fun p => if p.1 = k then (k, v) else p)) k
      = if m.any (fun p => p.1 == k) then some v else none := by
  induction m with
  | nil => rfl
  | cons p m ih =>
    by_cases h : p.1 = k
    · simp [recordGet, h]
    · have hpb : (p.1 == k) = false := by simp [h]
      simp only [List.map_cons, if_neg h, recordGet, hpb, Bool.false_eq_true, if_false,
        List.any_cons, Bool.false_or]
      exact ih

theorem recordGet_map_replace_other {α : Type} (m : JsRecord α) (k : String) (v : α)
    (k' : String) (h : k' ≠ k) :
    recordGet (m.map (fun p => if p.1 = k then (k, v) else p)) k'
      = recordGet m k' := by
  induction m with
  | nil => rfl
  | cons p m ih =>
    by_cases hp : p.1 = k
    · have hkk : (k == k') = false := by
        simp
        exact fun hkk => h hkk.symm
      have hpk : (p.1 == k') = false := by
        simp [hp]
        exact fun hkk => h hkk.symm
      simp only [List.map_cons, if_pos hp, recordGet, hkk, hpk, Bool.false_eq_true, if_false]
      exact ih
    · simp only [List.map_cons, if_neg hp, recordGet]
      by_cases hp' : p.1 = k'
      · simp [hp']
      · have hpb : (p.1 == k') = false := by simp [hp']
        simp only [hpb, Bool.false_eq_true, if_false]
        exact ih

theorem recordGet_append_single {α : Type} (m : JsRecord α) (k : String) (v : α)
    (hany : m.any (fun p => p.1 == k) = false) :
    recordGet (m ++ [(k, v)]) k = some v := by
  induction m with
  | nil => simp [recordGet]
  | cons p m ih =>
    simp only [List.any_cons, Bool.or_eq_false_iff] at hany
    have hp : ¬ (p.1 = k) := by
      intro hk
      simp [hk] at hany
    simp [recordGet, hp, ih hany.2]

theorem recordGet_append_single_other {α : Type} (m : JsRecord α) (k : String) (v : α)
    (k' : String) (h : k' ≠ k) :
    recordGet (m ++ [(k, v)]) k' = recordGet m k' := by
  induction m with
  | nil =>
    have hkk : ¬ (k = k') := fun hkk => h hkk.symm
    simp [recordGet, hkk]
  | cons p m ih =>
    by_cases hp : p.1 = k'
    · simp [recordGet, hp]
    · simp [recordGet, hp, ih]

theorem recordGet_set_self {α : Type} (m : JsRecord α) (k : String) (v : α) :
    recordGet (recordSet m k v) k = some v := by
  unfold recordSet
  by_cases h : m.any (fun p => p.1 == k)
  · rw [if_pos h]
    simp only [beq_iff_eq]
    rw [recordGet_map_replace, if_pos h]
  · rw [if_neg h]
    exact recordGet_append_single m k v (Bool.eq_false_iff.mpr h)

theorem recordGet_set_other {α : Type} (m : JsRecord α) (k : String) (v : α)
    (k' : String) (h : k' ≠ k) :
    recordGet (recordSet m k v) k' = recordGet m k' := by
  unfold recordSet
  by_cases hany : m.any (fun p => p.1 == k)
  · rw [if_pos hany]
    simp only [beq_iff_eq]
    rw [recordGet_map_replace_other m k v k' h]
  · rw [if_neg hany]
    exact recordGet_append_single_other m k v k' h

theorem getPrice_set_self (m : JsRecord Ingredient) (id : String) (p : Int) :
    (recordGet (handleIngredientPriceChange m id p) id).map Ingredient.defaultPrice
      = some p := by
  unfold handleIngredientPriceChange
  cases h : recordGet m id <;> simp [recordGet_set_self]

theorem get_set_other (m : JsRecord Ingredient) (id : String) (p : Int)
    (k : String) (h : k ≠ id) :
    recordGet (handleIngredientPriceChange m id p) k = recordGet m k := by
  unfold handleIngredientPriceChange
  exact recordGet_set_other m id _ k h

theorem costFold_eq_sum (I : JsRecord Ingredient) (R : List Recipe)
    (l : List RecipeEntry) (s : Int) :
    l.foldl (fun sum e =>
      match recordGet I e.id with
      | some ing => sum + ing.defaultPrice * e.qty
      | none =>
        match R.find? (fun r => r.id == e.id) with
        | some nestedRecipe => sum + nestedRecipe.sellValue * e.qty
        | none => sum) s
      = s + (l.map (ingredientContribution I R)).sum := by
  induction l generalizing s with
  | nil => simp
  | cons e l ih =>
    rw [List.foldl_cons, List.map_cons, List.sum_cons]
    cases h : recordGet I e.id with
    | some ing =>
      simp only [h]
      rw [ih]
      unfold ingredientContribution
      rw [h]
      ring
    | none =>
      cases h2 : R.find? (fun r => r.id == e.id) with
      | some nr =>
        simp only [h, h2]
        rw [ih]
        unfold ingredientContribution
        rw [h, h2]
        ring
      | none =>
        simp only [h, h2]
        rw [ih]
        unfold ingredientContribution
        rw [h, h2]
        ring

theorem sellValue_map_noop (id : String) (v : Int) :
    ∀ (l : List Recipe), (∀ r ∈ l, r.id ≠ id) →
      l.map (fun r => if r.id == id then { r with sellValue := v } else r) = l
  | [], _ => rfl
  | r :: l, h => by
    have hr : (r.id == id) = false := by
      simp only [beq_eq_false_iff_ne, ne_eq]
      exact h r (List.mem_cons_self r l)
    simp only [List.map_cons, hr, Bool.false_eq_true, if_false]
    rw [sellValue_map_noop id v l (fun q hq => h q (List.mem_cons_of_mem r hq))]

/-- C1: calculateRecipeCost equals the sum, over the entries of
`recipe.ingredients` in order, of the ingredient's `defaultPrice * qty` when
the id is a key of the ingredient map, else the first matching recipe's stored
`sellValue * qty` (one level, never a recomputed cost), else 0; in particular
the cost is 0 on an empty ingredient list, and the spec's R2 example costs
100. -/
theorem calculateRecipeCost_spec :
    (∀ (I : JsRecord Ingredient) (R : List Recipe) (r : Recipe),
      calculateRecipeCost I R r = (r.ingredients.map (ingredientContribution I R)).sum
      ∧ (r.ingredients = [] → calculateRecipeCost I R r = 0))
    ∧ calculateRecipeCost demoIngredients demoRecipes demoR2 = 100 := by
  have hsum : ∀ (I : JsRecord Ingredient) (R : List Recipe) (r : Recipe),
      calculateRecipeCost I R r = (r.ingredients.map (ingredientContribution I R)).sum := by
    intro I R r
    unfold calculateRecipeCost
    rw [costFold_eq_sum]
    ring
  refine ⟨fun I R r => ⟨hsum I R r, fun hempty => ?_⟩, by decide⟩
  rw [hsum I R r, hempty]
  rfl

/-- Witness for C1 at a concrete input: the empty-ingredients recipe costs 0. -/
theorem calculateRecipeCost_spec_witness :
    calculateRecipeCost demoIngredients demoRecipes demoEmpty = 0 :=
  (calculateRecipeCost_spec.1 demoIngredients demoRecipes demoEmpty).2 rfl

/-- C5: setting an ingredient price (any id, any integer price, negatives
included) then reading that id back yields exactly the new price, and every
other key reads back unchanged. -/
theorem setIngredientPrice_frame (m : JsRecord Ingredient) (id : String) (p : Int) :
    (recordGet (handleIngredientPriceChange m id p) id).map Ingredient.defaultPrice = some p
    ∧ ∀ k, k ≠ id → recordGet (handleIngredientPriceChange m id p) k = recordGet m k :=
  ⟨getPrice_set_self m id p, fun k hk => get_set_other m id p k hk⟩

/-- Witness for C5 at a concrete input, with a negative price. -/
theorem setIngredientPrice_frame_witness :
    (recordGet (handleIngredientPriceChange demoIngredients "iron_ore" (-3)) "iron_ore").map
        Ingredient.defaultPrice = some (-3)
    ∧ recordGet (handleIngredientPriceChange demoIngredients "iron_ore" (-3)) "gem"
        = recordGet demoIngredients "gem" :=
  ⟨(setIngredientPrice_frame demoIngredients "iron_ore" (-3)).1,
   (setIngredientPrice_frame demoIngredients "iron_ore" (-3)).2 "gem" (by decide)⟩

/-- C6: updating a sell value is a no-op on the recipe list when no recipe has
the id; otherwise only the matching recipe's `sellValue` changes while its
`id`, `name`, `skill` and `ingredients` fields and all non-matching recipes
are unchanged. -/
theorem setRecipeSellValue_frame (recipes : List Recipe) (id : String) (v : Int) :
    ((∀ r ∈ recipes, r.id ≠ id) → handleRecipeSellValueChange recipes id v = recipes)
    ∧ (handleRecipeSellValueChange recipes id v).length = recipes.length
    ∧ ∀ (i : ℕ) (h : i < recipes.length)
        (h2 : i < (handleRecipeSellValueChange recipes id v).length),
        (((handleRecipeSellValueChange recipes id v).get ⟨i, h2⟩).id
            = (recipes.get ⟨i, h⟩).id
          ∧ ((handleRecipeSellValueChange recipes id v).get ⟨i, h2⟩).name
            = (recipes.get ⟨i, h⟩).name
          ∧ ((handleRecipeSellValueChange recipes id v).get ⟨i, h2⟩).skill
            = (recipes.get ⟨i, h⟩).skill
          ∧ ((handleRecipeSellValueChange recipes id v).get ⟨i, h2⟩).ingredients
            = (recipes.get ⟨i, h⟩).ingredients)
        ∧ ((recipes.get ⟨i, h⟩).id = id →
            ((handleRecipeSellValueChange recipes id v).get ⟨i, h2⟩).sellValue = v)
        ∧ ((recipes.get ⟨i, h⟩).id ≠ id →
            (handleRecipeSellValueChange recipes id v).get ⟨i, h2⟩
              = recipes.get ⟨i, h⟩) := by
  refine ⟨sellValue_map_noop id v recipes, by simp [handleRecipeSellValueChange], ?_⟩
  intro i h h2
  have hget : (handleRecipeSellValueChange recipes id v).get ⟨i, h2⟩
      = (fun r => if r.id == id then { r with sellValue := v } else r)
          (recipes.get ⟨i, h⟩) := by
    simp [handleRecipeSellValueChange, List.get_eq_getElem, List.getElem_map]
  by_cases hid : (recipes.get ⟨i, h⟩).id = id
  · rw [hget]
    simp only [List.get_eq_getElem] at hid
    simp [hid]
  · rw [hget]
    simp only [List.get_eq_getElem] at hid
    simp [hid]

/-- Witness for C6 at concrete inputs: updating R1 changes its stored
sellValue, and updating a missing id leaves the list unchanged. -/
theorem setRecipeSellValue_frame_witness :
    ((handleRecipeSellValueChange demoRecipes "R1" 77).get ⟨0, by decide⟩).sellValue = 77
    ∧ handleRecipeSellValueChange demoRecipes "missing" 9 = demoRecipes :=
  ⟨((setRecipeSellValue_frame demoRecipes "R1" 77).2.2 0 (by decide) (by decide)).2.1
      (by decide),
   (setRecipeSellValue_frame demoRecipes "missing" 9).1 (by decide)⟩

/-- C2 (code evaluation): with skill "All" selected, `.sort` runs on the state
array itself and reorders it in place; at a concrete two-recipe state the
array afterwards differs from the input order, contradicting the required
purity of the display pipeline. -/
theorem filteredRecipes_mutates_on_All :
    (filteredRecipesRun "All" SortBy.name demoIngredients [demoR2, demoR1]).2
        = [demoR1, demoR2]
    ∧ [demoR1, demoR2] ≠ [demoR2, demoR1] :=
  ⟨by decide, by decide⟩

/-- C3 (code evaluation): the load effect has no try/catch around
`JSON.parse`, so a malformed persisted document is not treated as absence: the
parse error escapes the effect (for either document), while a genuinely absent
document does keep the passed-in state. -/
theorem loadSavedData_error_on_malformed :
    loadSavedData (some Stored.malformed) none (demoIngredients, demoRecipes)
      = Except.error ()
    ∧ loadSavedData none (some Stored.malformed) (demoIngredients, demoRecipes)
      = Except.error ()
    ∧ loadSavedData none none (demoIngredients, demoRecipes)
      = Except.ok (demoIngredients, demoRecipes) := by
  refine ⟨rfl, rfl, rfl⟩

theorem importStep_num (acc : JsRecord Ingredient × List (String × Int))
    (k : String) (n : Int) :
    importStep acc (k, JsonValue.num n)
      = (handleIngredientPriceChange acc.1 k n, acc.2 ++ [(k, n)]) := rfl

theorem importStep_skip (acc : JsRecord Ingredient × List (String × Int))
    (k : String) (val : JsonValue) (h : ∀ n, val ≠ JsonValue.num n) :
    importStep acc (k, val) = acc := by
  cases val with
  | num n => exact absurd rfl (h n)
  | str s => rfl
  | boolean b => rfl
  | null => rfl
  | objOrArr => rfl

theorem importFold (entries : List (String × JsonValue)) (st : JsRecord Ingredient)
    (calls : List (String × Int)) :
    entries.foldl importStep (st, calls)
      = ((numericEntries entries).foldl
          (fun s c => handleIngredientPriceChange s c.1 c.2) st,
         calls ++ numericEntries entries) := by
  induction entries generalizing st calls with
  | nil => simp [numericEntries]
  | cons e l ih =>
    cases e with
    | mk k val =>
      cases val with
      | num n =>
        rw [List.foldl_cons, importStep_num, ih]
        simp [numericEntries, List.filterMap_cons]
      | str s =>
        rw [List.foldl_cons, importStep_skip _ k _ (fun n hn => JsonValue.noConfusion hn), ih]
        simp [numericEntries, List.filterMap_cons]
      | boolean b =>
        rw [List.foldl_cons, importStep_skip _ k _ (fun n hn => JsonValue.noConfusion hn), ih]
        simp [numericEntries, List.filterMap_cons]
      | null =>
        rw [List.foldl_cons, importStep_skip _ k _ (fun n hn => JsonValue.noConfusion hn), ih]
        simp [numericEntries, List.filterMap_cons]
      | objOrArr =>
        rw [List.foldl_cons, importStep_skip _ k _ (fun n hn => JsonValue.noConfusion hn), ih]
        simp [numericEntries, List.filterMap_cons]

/-- C4: a successfully parsed upload invokes the price setter exactly on the
numeric-valued keys in document order, non-numeric values are skipped without
effect, and the resulting store is the fold of exactly those calls; a
top-level parse failure shows the failure banner, performs no call, and leaves
the store unchanged. -/
theorem importIngredientPrices_spec (entries : List (String × JsonValue))
    (st : JsRecord Ingredient) :
    (importIngredientPrices (Stored.valid entries) st).2.2 = numericEntries entries
    ∧ (importIngredientPrices (Stored.valid entries) st).1
        = (numericEntries entries).foldl
            (fun s c => handleIngredientPriceChange s c.1 c.2) st
    ∧ (importIngredientPrices (Stored.valid entries) st).2.1 = Notice.success
    ∧ importIngredientPrices Stored.malformed st = (st, Notice.failure, []) := by
  refine ⟨?_, ?_, rfl, rfl⟩ <;>
    simp [importIngredientPrices, jsonParse, importFold entries st []]

theorem foldl_recordSet_fresh (k2v : Ingredient → Int) :
    ∀ (l : List Ingredient) (acc : JsRecord Int),
      (∀ i ∈ l, ∀ q ∈ acc, q.1 ≠ idKey i) → (l.map idKey).Nodup →
      l.foldl (fun acc ing => recordSet acc (idKey ing) (k2v ing)) acc
        = acc ++ l.map (fun i => (idKey i, k2v i))
  | [], acc, _, _ => by simp
  | i :: l, acc, hfresh, hnd => by
    have hanynot : acc.any (fun p => p.1 == idKey i) = false := by
      rw [Bool.eq_false_iff]
      intro hc
      rcases List.any_eq_true.mp hc with ⟨q, hq, hbeq⟩
      exact hfresh i (List.mem_cons_self i l) q hq (by simpa using hbeq)
    have hset : recordSet acc (idKey i) (k2v i) = acc ++ [(idKey i, k2v i)] := by
      unfold recordSet
      rw [if_neg (by simp [hanynot])]
    have hnd2 : (l.map idKey).Nodup := by
      rw [List.map_cons, List.nodup_cons] at hnd
      exact hnd.2
    have hnotmem : idKey i ∉ l.map idKey := by
      rw [List.map_cons, List.nodup_cons] at hnd
      exact hnd.1
    have hfresh2 : ∀ j ∈ l, ∀ q ∈ acc ++ [(idKey i, k2v i)], q.1 ≠ idKey j := by
      intro j hj q hq
      rcases List.mem_append.mp hq with hq | hq
      · exact hfresh j (List.mem_cons_of_mem i hj) q hq
      · rcases List.mem_singleton.mp hq with rfl
        intro hcontra
        apply hnotmem
        have hik : idKey i = idKey j := hcontra
        rw [hik]
        exact List.mem_map_of_mem idKey hj
    rw [List.foldl_cons, hset, foldl_recordSet_fresh k2v l _ hfresh2 hnd2,
      List.append_assoc]
    rfl

theorem handleDownload_eq_map (l : List Ingredient) (hnd : (l.map idKey).Nodup) :
    handleDownload l = l.map (fun i => (idKey i, i.defaultPrice)) := by
  unfold handleDownload
  simpa using foldl_recordSet_fresh (fun i => i.defaultPrice) l []
    (fun i _ q hq => absurd hq (List.not_mem_nil q)) hnd

theorem numericEntries_toJsonDoc (doc : JsRecord Int) :
    numericEntries (toJsonDoc doc) = doc := by
  induction doc with
  | nil => rfl
  | cons p l ih =>
    show numericEntries ((p.1, JsonValue.num p.2) :: toJsonDoc l) = p :: l
    have h1 : numericEntries ((p.1, JsonValue.num p.2) :: toJsonDoc l)
        = (p.1, p.2) :: numericEntries (toJsonDoc l) := rfl
    rw [h1, ih]

theorem foldl_set_preserve (k : String) :
    ∀ (pairs : List (String × Int)) (st : JsRecord Ingredient),
      (∀ c ∈ pairs, c.1 ≠ k) →
      recordGet (pairs.foldl (fun s c => handleIngredientPriceChange s c.1 c.2) st) k
        = recordGet st k
  | [], st, _ => rfl
  | c :: l, st, hk => by
    rw [List.foldl_cons,
      foldl_set_preserve k l _ (fun q hq => hk q (List.mem_cons_of_mem c hq))]
    exact get_set_other st c.1 c.2 k
      (fun h => hk c (List.mem_cons_self c l) h.symm)

theorem foldl_set_get (k : String) (v : Int) :
    ∀ (pairs : List (String × Int)) (st : JsRecord Ingredient),
      (pairs.map Prod.fst).Nodup → (k, v) ∈ pairs →
      (recordGet (pairs.foldl (fun s c => handleIngredientPriceChange s c.1 c.2) st) k).map
          Ingredient.defaultPrice = some v
  | [], _, _, hmem => absurd hmem (List.not_mem_nil _)
  | c :: l, st, hnd, hmem => by
    rw [List.map_cons, List.nodup_cons] at hnd
    rw [List.foldl_cons]
    rcases List.mem_cons.mp hmem with hc | hc
    · have hkc : c.1 = k := by rw [← hc]
      have hkl : ∀ q ∈ l, q.1 ≠ k := by
        intro q hq hqk
        exact hnd.1 (hkc ▸ hqk ▸ List.mem_map_of_mem Prod.fst hq)
      rw [foldl_set_preserve k l _ hkl, ← hc]
      exact getPrice_set_self st k v
    · exact foldl_set_get k v l _ hnd.2 hc

/-- C7: exporting the current ingredient map with `handleDownload` and
re-importing the produced document through the upload handler into any freshly
reset store reproduces the original price for every ingredient id (the map is
keyed consistently: unique keys, each entry's `id` field equal to its key). -/
theorem export_import_roundtrip (m m0 : JsRecord Ingredient)
    (hnd : (m.map Prod.fst).Nodup)
    (hid : ∀ p ∈ m, p.2.id = some p.1) :
    ∀ k v, (k, v) ∈ m →
      (recordGet ((importIngredientPrices
          (Stored.valid (toJsonDoc (handleDownload (objectValues m)))) m0).1) k).map
        Ingredient.defaultPrice = some v.defaultPrice := by
  intro k v hmem
  have hkeys : (objectValues m).map idKey = m.map Prod.fst := by
    unfold objectValues
    rw [List.map_map]
    exact List.map_congr_left (fun p hp => by simp [idKey, hid p hp])
  have hnd2 : ((objectValues m).map idKey).Nodup := by
    rw [hkeys]
    exact hnd
  have hdoc : handleDownload (objectValues m)
      = m.map (fun p => (p.1, p.2.defaultPrice)) := by
    rw [handleDownload_eq_map _ hnd2]
    unfold objectValues
    rw [List.map_map]
    exact List.map_congr_left (fun p hp => by simp [idKey, hid p hp])
  have himp : (importIngredientPrices
        (Stored.valid (toJsonDoc (handleDownload (objectValues m)))) m0).1
      = (m.map (fun p => (p.1, p.2.defaultPrice))).foldl
          (fun s c => handleIngredientPriceChange s c.1 c.2) m0 := by
    rw [hdoc]
    simp [importIngredientPrices, jsonParse, importFold, numericEntries_toJsonDoc]
  rw [himp]
  refine foldl_set_get k v.defaultPrice _ m0 ?_ ?_
  · rw [List.map_map]
    exact hnd
  · exact List.mem_map.mpr ⟨(k, v), hmem, rfl⟩

/-- Witness for C7 at a concrete input: round-tripping the demo map into an
empty store reproduces the iron_ore price 10. -/
theorem export_import_roundtrip_witness :
    (recordGet ((importIngredientPrices
        (Stored.valid (toJsonDoc (handleDownload (objectValues demoIngredients)))) []).1)
        "iron_ore").map Ingredient.defaultPrice = some 10 :=
  export_import_roundtrip demoIngredients [] (by decide) (by decide)
    "iron_ore" ironOre (by decide)

theorem ltChars_cons_iff (a b : Char) (as bs : List Char) :
    ltChars (a :: as) (b :: bs) = true ↔ a < b ∨ (a = b ∧ ltChars as bs = true) := by
  simp [ltChars, Bool.or_eq_true, Bool.and_eq_true, decide_eq_true_eq, beq_iff_eq]

theorem ltChars_irrefl : ∀ (l : List Char), ltChars l l = false
  | [] => rfl
  | a :: l => by
    rw [Bool.eq_false_iff]
    intro hc
    rcases (ltChars_cons_iff a a l l).mp hc with h | ⟨_, h⟩
    · exact lt_irrefl a h
    · exact (Bool.eq_false_iff.mp (ltChars_irrefl l)) h

theorem ltChars_trans : ∀ (a b c : List Char),
    ltChars a b = true → ltChars b c = true → ltChars a c = true
  | [], b, c, h1, h2 => by
    cases c with
    | nil =>
      cases b with
      | nil => exact absurd h1 (by simp [ltChars])
      | cons y bs => exact absurd h2 (by simp [ltChars])
    | cons z cs => rfl
  | _ :: _, [], _, h1, _ => absurd h1 (by simp [ltChars])
  | _ :: _, _ :: _, [], _, h2 => absurd h2 (by simp [ltChars])
  | x :: as, y :: bs, z :: cs, h1, h2 => by
    rcases (ltChars_cons_iff x y as bs).mp h1 with hxy | ⟨hxy, h1s⟩
    · rcases (ltChars_cons_iff y z bs cs).mp h2 with hyz | ⟨hyz, _⟩
      · exact (ltChars_cons_iff x z as cs).mpr (Or.inl (lt_trans hxy hyz))
      · exact (ltChars_cons_iff x z as cs).mpr (Or.inl (hyz ▸ hxy))
    · rcases (ltChars_cons_iff y z bs cs).mp h2 with hyz | ⟨hyz, h2s⟩
      · exact (ltChars_cons_iff x z as cs).mpr (Or.inl (hxy.symm ▸ hyz))
      · exact (ltChars_cons_iff x z as cs).mpr
          (Or.inr ⟨hxy.trans hyz, ltChars_trans as bs cs h1s h2s⟩)

theorem ltChars_asymm (a b : List Char) (h : ltChars a b = true) :
    ltChars b a = false := by
  rw [Bool.eq_false_iff]
  intro hc
  exact (Bool.eq_false_iff.mp (ltChars_irrefl a)) (ltChars_trans a b a h hc)

theorem ltChars_connex : ∀ (a b : List Char),
    ltChars a b = false → ltChars b a = false → a = b
  | [], [], _, _ => rfl
  | [], _ :: _, h1, _ => absurd h1 (by simp [ltChars])
  | _ :: _, [], _, h2 => absurd h2 (by simp [ltChars])
  | x :: as, y :: bs, h1, h2 => by
    have hxy : ¬ x < y := fun hlt =>
      (Bool.eq_false_iff.mp h1) ((ltChars_cons_iff x y as bs).mpr (Or.inl hlt))
    have hyx : ¬ y < x := fun hlt =>
      (Bool.eq_false_iff.mp h2) ((ltChars_cons_iff y x bs as).mpr (Or.inl hlt))
    have hxeq : x = y := le_antisymm (not_lt.mp hyx) (not_lt.mp hxy)
    have has : ltChars as bs = false := by
      rw [Bool.eq_false_iff]
      intro hc
      exact (Bool.eq_false_iff.mp h1)
        ((ltChars_cons_iff x y as bs).mpr (Or.inr ⟨hxeq, hc⟩))
    have hbs : ltChars bs as = false := by
      rw [Bool.eq_false_iff]
      intro hc
      exact (Bool.eq_false_iff.mp h2)
        ((ltChars_cons_iff y x bs as).mpr (Or.inr ⟨hxeq.symm, hc⟩))
    rw [hxeq, ltChars_connex as bs has hbs]

theorem localeCompare_le_iff (a b : String) :
    localeCompare a b ≤ 0 ↔ ltChars b.toList a.toList = false := by
  unfold localeCompare
  by_cases h1 : ltChars a.toList b.toList = true
  · rw [if_pos h1]
    exact iff_of_true (by norm_num) (ltChars_asymm _ _ h1)
  · rw [if_neg h1]
    by_cases h2 : ltChars b.toList a.toList = true
    · rw [if_pos h2]
      exact iff_of_false (by norm_num) (by simpa using h2)
    · rw [if_neg h2]
      exact iff_of_true le_rfl (Bool.eq_false_iff.mpr h2)

theorem localeCompare_total (a b : String) :
    localeCompare a b ≤ 0 ∨ localeCompare b a ≤ 0 := by
  by_cases h2 : ltChars b.toList a.toList = true
  · right
    rw [localeCompare_le_iff]
    exact ltChars_asymm _ _ h2
  · left
    rw [localeCompare_le_iff]
    exact Bool.eq_false_iff.mpr h2

theorem localeCompare_le_trans (a b c : String)
    (h1 : localeCompare a b ≤ 0) (h2 : localeCompare b c ≤ 0) :
    localeCompare a c ≤ 0 := by
  rw [localeCompare_le_iff] at h1 h2 ⊢
  rw [Bool.eq_false_iff]
  intro hca
  by_cases hab : ltChars a.toList b.toList = true
  · exact (Bool.eq_false_iff.mp h2) (ltChars_trans _ _ _ hca hab)
  · have hba : a.toList = b.toList :=
      ltChars_connex _ _ (Bool.eq_false_iff.mpr hab) h1
    exact (Bool.eq_false_iff.mp h2) (hba ▸ hca)

theorem jsSort_perm {α : Type} (cmp : α → α → Int) (l : List α) :
    List.Perm (jsSort cmp l) l :=
  List.perm_insertionSort _ l

theorem jsSort_pairwise {α : Type} (cmp : α → α → Int)
    (htot : ∀ a b, cmp a b ≤ 0 ∨ cmp b a ≤ 0)
    (htrans : ∀ a b c, cmp a b ≤ 0 → cmp b c ≤ 0 → cmp a c ≤ 0)
    (l : List α) :
    List.Pairwise (fun a b => cmp a b ≤ 0) (jsSort cmp l) := by
  haveI : IsTotal α (fun a b => cmp a b ≤ 0) := ⟨htot⟩
  haveI : IsTrans α (fun a b => cmp a b ≤ 0) := ⟨fun a b c => htrans a b c⟩
  exact List.sorted_insertionSort _ l

theorem filter_orderedInsert_pos {α : Type} (r : α → α → Prop) [DecidableRel r]
    (p : α → Bool) (x : α) (hpx : p x = true)
    (hskip : ∀ y, ¬ r x y → p y = false) :
    ∀ (l : List α), (List.orderedInsert r x l).filter p = x :: l.filter p
  | [] => by simp [hpx]
  | y :: l => by
    by_cases h : r x y
    · simp [List.orderedInsert, h, List.filter_cons, hpx]
    · have hy : p y = false := hskip y h
      simp [List.orderedInsert, h, List.filter_cons, hy, hpx,
        filter_orderedInsert_pos r p x hpx hskip l]

theorem filter_orderedInsert_neg {α : Type} (r : α → α → Prop) [DecidableRel r]
    (p : α → Bool) (x : α) (hpx : p x = false) :
    ∀ (l : List α), (List.orderedInsert r x l).filter p = l.filter p
  | [] => by simp [hpx]
  | y :: l => by
    by_cases h : r x y
    · simp [List.orderedInsert, h, List.filter_cons, hpx]
    · simp [List.orderedInsert, h, List.filter_cons, hpx,
        filter_orderedInsert_neg r p x hpx l]

theorem insertionSortFilter {α β : Type} [DecidableEq β] (cmp : α → α → Int)
    (key : α → β) (htie : ∀ a b, key a = key b → cmp a b ≤ 0) (k : β) :
    ∀ (l : List α),
      (List.insertionSort (fun a b => cmp a b ≤ 0) l).filter (fun x => key x == k)
        = l.filter (fun x => key x == k)
  | [] => rfl
  | x :: l => by
    rw [List.insertionSort]
    by_cases hx : key x = k
    · have hskip : ∀ y, ¬ (cmp x y ≤ 0) → (key y == k) = false := by
        intro y hy
        rw [beq_eq_false_iff_ne]
        intro hyk
        exact hy (htie x y (by rw [hx, hyk]))
      rw [filter_orderedInsert_pos _ _ x (by simp [hx]) hskip,
        insertionSortFilter cmp key htie k l, List.filter_cons]
      simp [hx]
    · rw [filter_orderedInsert_neg _ _ x (by simp [hx]),
        insertionSortFilter cmp key htie k l, List.filter_cons]
      simp [hx]

theorem jsSort_filter_stable {α β : Type} [DecidableEq β] (cmp : α → α → Int)
    (key : α → β) (htie : ∀ a b, key a = key b → cmp a b ≤ 0) (k : β) (l : List α) :
    (jsSort cmp l).filter (fun x => key x == k) = l.filter (fun x => key x == k) :=
  insertionSortFilter cmp key htie k l

/-- C8: the three sort modes of the recipe listing, each a permutation of its
input: "name" sorts ascending under the locale comparison of recipe names;
"profit" sorts descending by `sellValue - cost`, entries with equal profit
keeping their original relative order (stability, stated as preservation of
every equal-profit fiber); "totalCost" sorts ascending by recipe cost, again
with stable ties. -/
theorem sortRecipes_spec (I : JsRecord Ingredient) (R : List Recipe) (l : List Recipe) :
    (List.Perm (sortRecipes SortBy.name I R l) l
      ∧ List.Pairwise (fun a b => localeCompare a.name b.name ≤ 0)
          (sortRecipes SortBy.name I R l))
    ∧ (List.Perm (sortRecipes SortBy.profit I R l) l
      ∧ List.Pairwise (fun a b => profit I R b ≤ profit I R a)
          (sortRecipes SortBy.profit I R l)
      ∧ ∀ v : Int,
          (sortRecipes SortBy.profit I R l).filter (fun r => profit I R r == v)
            = l.filter (fun r => profit I R r == v))
    ∧ (List.Perm (sortRecipes SortBy.totalCost I R l) l
      ∧ List.Pairwise
          (fun a b => calculateRecipeCost I R a ≤ calculateRecipeCost I R b)
          (sortRecipes SortBy.totalCost I R l)
      ∧ ∀ v : Int,
          (sortRecipes SortBy.totalCost I R l).filter
              (fun r => calculateRecipeCost I R r == v)
            = l.filter (fun r => calculateRecipeCost I R r == v)) := by
  refine ⟨⟨jsSort_perm _ l, ?_⟩, ⟨jsSort_perm _ l, ?_, ?_⟩,
    ⟨jsSort_perm _ l, ?_, ?_⟩⟩
  · exact jsSort_pairwise (sortComparator SortBy.name I R)
      (fun a b => localeCompare_total a.name b.name)
      (fun a b c h1 h2 => localeCompare_le_trans _ _ _ h1 h2) l
  · have h := jsSort_pairwise (sortComparator SortBy.profit I R)
      (fun a b => by simp only [sortComparator]; omega)
      (fun a b c h1 h2 => by simp only [sortComparator] at h1 h2 ⊢; omega) l
    refine List.Pairwise.imp ?_ h
    intro a b hab
    simp only [sortComparator] at hab
    unfold profit
    omega
  · intro v
    refine jsSort_filter_stable (sortComparator SortBy.profit I R) (profit I R)
      ?_ v l
    intro a b hab
    simp only [sortComparator]
    unfold profit at hab
    omega
  · have h := jsSort_pairwise (sortComparator SortBy.totalCost I R)
      (fun a b => by simp only [sortComparator]; omega)
      (fun a b c h1 h2 => by simp only [sortComparator] at h1 h2 ⊢; omega) l
    refine List.Pairwise.imp ?_ h
    intro a b hab
    simp only [sortComparator] at hab
    omega
  · intro v
    refine jsSort_filter_stable (sortComparator SortBy.totalCost I R)
      (calculateRecipeCost I R) ?_ v l
    intro a b hab
    simp only [sortComparator]
    omega

/-- C9 counterexample: storing a price under "R1", an id that is not a key of
the demo ingredient map, changes a consumer output: recipe R2's computed cost
moves from 100 (nested recipe R1's sell value) to 14 (the stored entry), so
the stored entry is read back. -/
theorem unknownId_counterexample :
    recordGet demoIngredients "R1" = none
    ∧ calculateRecipeCost (handleIngredientPriceChange demoIngredients "R1" 7)
        demoRecipes demoR2
      ≠ calculateRecipeCost demoIngredients demoRecipes demoR2 :=
  ⟨by decide, by decide⟩

/-- C9 amended: an entry stored under an id absent from the ingredient map is
read back by consumers: afterwards every recipe-cost computation values each
ingredient entry referencing that id at the stored price times quantity,
taking precedence over the nested-recipe sell-value lookup; entries not
referencing it contribute as before. -/
theorem unknownId_read_back (m : JsRecord Ingredient) (R : List Recipe)
    (id : String) (p : Int) (hid : recordGet m id = none) (r : Recipe) :
    calculateRecipeCost (handleIngredientPriceChange m id p) R r
      = (r.ingredients.map (fun e =>
          if e.id = id then p * e.qty else ingredientContribution m R e)).sum := by
  have hsum : calculateRecipeCost (handleIngredientPriceChange m id p) R r
      = (r.ingredients.map
          (ingredientContribution (handleIngredientPriceChange m id p) R)).sum := by
    unfold calculateRecipeCost
    rw [costFold_eq_sum]
    ring
  rw [hsum]
  congr 1
  apply List.map_congr_left
  intro e _
  by_cases heid : e.id = id
  · rw [if_pos heid]
    unfold ingredientContribution
    rw [heid]
    have hget : recordGet (handleIngredientPriceChange m id p) id
        = some { id := none, name := none, icon := none, defaultPrice := p } := by
      unfold handleIngredientPriceChange
      rw [hid]
      exact recordGet_set_self m id _
    rw [hget]
  · rw [if_neg heid]
    unfold ingredientContribution
    rw [get_set_other m id p e.id heid]

/-- Witness for the amended C9 at the demo input. -/
theorem unknownId_read_back_witness :
    calculateRecipeCost (handleIngredientPriceChange demoIngredients "R1" 7)
        demoRecipes demoR2
      = (demoR2.ingredients.map (fun e =>
          if e.id = "R1" then 7 * e.qty
          else ingredientContribution demoIngredients demoRecipes e)).sum :=
  unknownId_read_back demoIngredients demoRecipes "R1" 7 (by decide) demoR2

/-- C10: the exported price document is independent of the search box content
(the search narrows only the displayed list), and under unique export keys it
holds exactly one entry per ingredient of the full prop list, mapping each
ingredient's id key to its current defaultPrice. -/
theorem export_independent_of_search :
    (∀ (ingredientList : List Ingredient) (s1 s2 : String),
      (ingredientMaster ingredientList s1).exported
        = (ingredientMaster ingredientList s2).exported)
    ∧ ∀ (ingredientList : List Ingredient) (s : String),
        (ingredientList.map idKey).Nodup →
        (ingredientMaster ingredientList s).exported
          = ingredientList.map (fun i => (idKey i, i.defaultPrice)) :=
  ⟨fun _ _ _ => rfl, fun l _ hnd => handleDownload_eq_map l hnd⟩

/-- Witness for C10 at the demo input. -/
theorem export_independent_of_search_witness :
    (ingredientMaster (objectValues demoIngredients) "iron").exported
        = (ingredientMaster (objectValues demoIngredients) "").exported
    ∧ (ingredientMaster (objectValues demoIngredients) "zzz").exported
        = (objectValues demoIngredients).map (fun i => (idKey i, i.defaultPrice)) :=
  ⟨export_independent_of_search.1 (objectValues demoIngredients) "iron" "",
   export_independent_of_search.2 (objectValues demoIngredients) "zzz" (by decide)⟩

end BPSR

